import Mathlib

/-!
Shallow embedding of the trade_simulate repository.

Prices and timestamps are modelled as rationals (the Python scripts perform
plain field arithmetic on them: multiplication, division, comparison).
Each Python source file gets its own namespace:
  * NoScale  — 단순화.py        (single-entry, no-ladder simulator)
  * Ladder   — simulate.py      (ladder / averaging-down simulator and backtest)
  * Sig      — 변동성계산.py     (multi-timeframe drop-signal generator)
  * Rev      — 연속매매.py       (direction-reversal chained backtest)
-/

/-- Terminal outcome of a simulated position: take-profit, liquidation or
still open at data exhaustion. -/
inductive Outcome where
  | TP
  | LIQ
  | OPEN
deriving DecidableEq, Inhabited

/-- One bar of the converted price series: a (time, close price) sample. -/
structure Bar where
  time : ℚ
  price : ℚ
deriving DecidableEq, Inhabited

namespace NoScale

/-- Strategy parameter LEVERAGE = 20 of 단순화.py. -/
def LEVERAGE : ℚ := 20

/-- Strategy parameter ROI_NET = 0.05 of 단순화.py. -/
def ROI_NET : ℚ := 5 / 100

/-- Strategy parameter MMR = 0.005 of 단순화.py. -/
def MMR : ℚ := 5 / 1000

/-- Strategy parameter INIT_M = 2000 of 단순화.py. -/
def INIT_M : ℚ := 2000

/-- Result dictionary returned by simulate_no_scale: res, hold, exit. -/
structure NoScaleResult where
  res : Outcome
  hold : ℕ
  exitTime : Option ℚ
deriving DecidableEq

/-- Forward scan of simulate_no_scale over the bars after the entry bar.
`k` counts the bars consumed so far, so that on the bar with index
i = start + k + 1 the recorded hold is i - start = k + 1, and on data
exhaustion the hold is len(df) - start - 1 = k, exactly as in the source. -/
def scanBars (tpPrice avg qty margin : ℚ) (k : ℕ) : List Bar → NoScaleResult
  | [] => { res := .OPEN, hold := k, exitTime := none }
  | b :: rest =>
    if tpPrice ≤ b.price then
      { res := .TP, hold := k + 1, exitTime := some b.time }
    else
      let liq_price := (avg * qty - margin) / (qty * (1 - MMR))
      if b.price ≤ liq_price then
        { res := .LIQ, hold := k + 1, exitTime := some b.time }
      else
        scanBars tpPrice avg qty margin (k + 1) rest

/-- simulate_no_scale of 단순화.py: entry at df[start], then a forward scan
from start+1 testing TP first and then liquidation on every bar. -/
def simulate_no_scale (df : List Bar) (start : ℕ) : NoScaleResult :=
  let entry := (df.getD start default).price
  let t := ROI_NET / LEVERAGE
  let tp_price := entry * (1 + t)
  let margin := INIT_M
  let qty := (INIT_M * LEVERAGE) / entry
  let avg := entry
  scanBars tp_price avg qty margin 0 (df.drop (start + 1))

end NoScale

namespace Ladder

/-- Strategy parameter LEVERAGE = 20 of simulate.py. -/
def LEVERAGE : ℚ := 20

/-- Strategy parameter ROI_NET = 0.05 of simulate.py. -/
def ROI_NET : ℚ := 5 / 100

/-- Strategy parameter FEE_MAKER = 0.0002 of simulate.py. -/
def FEE_MAKER : ℚ := 2 / 10000

/-- Strategy parameter INIT_M = 2000 of simulate.py. -/
def INIT_M : ℚ := 2000

/-- Strategy parameter ADD_M = 800 of simulate.py. -/
def ADD_M : ℚ := 800

/-- Strategy parameter DROPS = [0.01, 0.02, 0.03, 0.04] of simulate.py. -/
def DROPS : List ℚ := [1 / 100, 2 / 100, 3 / 100, 4 / 100]

/-- Strategy parameter MMR = 0.005 of simulate.py. -/
def MMR : ℚ := 5 / 1000

/-- One entry of the averaging plan produced by make_plan:
the dict(step, trigger, avg, tp, margin, qty). -/
structure Step where
  step : ℕ
  trigger : ℚ
  avg : ℚ
  tp : ℚ
  margin : ℚ
  qty : ℚ
deriving DecidableEq, Inhabited

/-- Loop body of make_plan: for each drop fraction d, compute the trigger
from the running average, add margin and quantity bought at the trigger,
and recompute the average from the running notional n.  State variables
(t, m, n, q, avg, i) mirror the Python locals; i is len(plan). -/
def planAux (t : ℚ) : List ℚ → ℚ → ℚ → ℚ → ℚ → ℕ → List Step
  | [], _, _, _, _, _ => []
  | d :: ds, m, n, q, avg, i =>
    let trigger_price := avg * (1 - d)
    let m2 := m + ADD_M
    let n2 := n + ADD_M * LEVERAGE
    let q2 := q + (ADD_M * LEVERAGE) / trigger_price
    let avg2 := n2 / q2
    { step := i, trigger := trigger_price, avg := avg2, tp := avg2 * (1 + t),
      margin := m2, qty := q2 } :: planAux t ds m2 n2 q2 avg2 (i + 1)

/-- make_plan of simulate.py: step 0 commits INIT_M at the entry price, then
one further step per element of DROPS. -/
def make_plan (entry : ℚ) : List Step :=
  let r_gross := ROI_NET
  let t := r_gross / LEVERAGE
  let m := INIT_M
  let n := INIT_M * LEVERAGE
  let q := n / entry
  let avg := entry
  { step := 0, trigger := entry, avg := avg, tp := avg * (1 + t),
    margin := m, qty := q } :: planAux t DROPS m n q avg 1

/-- Liquidation price computed inside the scan loop of simulate:
(avg*qty - margin) / (qty*(1 - MMR)) from the current step's fields. -/
def liqPrice (st : Step) : ℚ :=
  (st.avg * st.qty - st.margin) / (st.qty * (1 - MMR))

/-- The inner while-loop of simulate: while pos < len(plan)-1 and
price <= plan[pos+1].trigger, advance pos, append the timestamp to waters
and update tp_price to plan[pos].tp.  The fuel argument is called with
plan.length, which bounds the number of iterations since pos strictly
increases and stays below plan.length. -/
def advanceSteps (plan : List Step) (price ts : ℚ) :
    ℕ → ℕ → ℚ → List ℚ → ℕ × ℚ × List ℚ
  | 0, pos, tpPrice, waters => (pos, tpPrice, waters)
  | fuel + 1, pos, tpPrice, waters =>
    if pos < plan.length - 1 ∧ price ≤ ((plan.getD (pos + 1) default).trigger) then
      advanceSteps plan price ts fuel (pos + 1)
        ((plan.getD (pos + 1) default).tp) (waters ++ [ts])
    else
      (pos, tpPrice, waters)

/-- Result dictionary returned by simulate: res, hold, exit, waters. -/
structure SimResult where
  res : Outcome
  hold : ℕ
  exitTime : Option ℚ
  waters : List ℚ
deriving DecidableEq

/-- Forward scan of simulate over the bars after the entry bar.  Per bar:
TP is tested first against the current step's tp price, then the ladder
while-loop advances pos, then liquidation is tested against the price from
the post-advance step.  `k` counts the bars consumed so far, so hold is
k+1 on a terminal bar and k on data exhaustion, as in the source. -/
def scanLadder (plan : List Step) : ℕ → ℚ → List ℚ → ℕ → List Bar → SimResult
  | _, _, waters, k, [] => { res := .OPEN, hold := k, exitTime := none, waters := waters }
  | pos, tpPrice, waters, k, b :: rest =>
    if tpPrice ≤ b.price then
      { res := .TP, hold := k + 1, exitTime := some b.time, waters := waters }
    else
      let a := advanceSteps plan b.price b.time plan.length pos tpPrice waters
      let liq_price := liqPrice (plan.getD a.1 default)
      if b.price ≤ liq_price then
        { res := .LIQ, hold := k + 1, exitTime := some b.time, waters := a.2.2 }
      else
        scanLadder plan a.1 a.2.1 a.2.2 (k + 1) rest

/-- simulate of simulate.py: build the plan from the entry bar's price and
scan forward from start+1. -/
def simulate (df : List Bar) (start : ℕ) : SimResult :=
  let entry := (df.getD start default).price
  let plan := make_plan entry
  let pos := 0
  let tp_price := (plan.getD 0 default).tp
  scanLadder plan pos tp_price [] 0 (df.drop (start + 1))

/-- One row of the converted CSV as loaded by load_converted, with the
month key df['time'].dt.strftime('%Y-%m') of its timestamp made explicit
(the backtest only ever uses the timestamp's month through that formatter). -/
structure PriceRow where
  month : String
  time : ℚ
  price : ℚ
deriving DecidableEq

/-- Python round(x, 2) used on the Profit column.  Mathlib's round is
round-half-up while Python rounds half to even; the two differ only at
exact half-cent boundaries, which no claim depends on. -/
def round2 (x : ℚ) : ℚ := (round (x * 100) : ℤ) / 100

/-- One record dict built per entry index by backtest of simulate.py. -/
structure TradeRecord where
  entryTime : ℚ
  entryPrice : ℚ
  result : Outcome
  holdMin : ℕ
  exitTime : Option ℚ
  waterCnt : ℕ
  profit : ℚ
  waterCols : List (Option ℚ)
deriving DecidableEq

/-- Column names of the record dicts of backtest. -/
def RECORD_COLS : List String :=
  ["Entry_Time", "Entry_Price", "Result", "Hold_Min", "Exit_Time",
   "WaterCnt", "Profit", "Water1", "Water2", "Water3", "Water4"]

/-- The pandas DataFrame df_res = pd.DataFrame(records), abstracted to its
column index and rows.  pd.DataFrame applied to an empty record list yields
a frame with NO columns; applied to a non-empty list it derives the columns
from the record dicts. -/
structure Frame where
  cols : List String
  rows : List TradeRecord
deriving DecidableEq

/-- pd.DataFrame(records): empty records give an empty, column-less frame. -/
def frameOfRecords (records : List TradeRecord) : Frame :=
  { cols := if records.isEmpty then [] else RECORD_COLS, rows := records }

/-- A boolean-mask row selection df_res[df_res['Result'] <op> value]:
pandas raises KeyError('Result') when the frame has no Result column. -/
def maskByResult (f : Frame) (p : TradeRecord → Bool) : Except String Frame :=
  if "Result" ∈ f.cols then .ok { cols := f.cols, rows := f.rows.filter p }
  else .error "KeyError: Result"

/-- Counting df_res['Result'].eq(o) hits; the same KeyError applies. -/
def countResult (f : Frame) (o : Outcome) : Except String ℕ :=
  if "Result" ∈ f.cols then .ok (f.rows.filter (fun r => r.result == o)).length
  else .error "KeyError: Result"

/-- The record dict built for one entry index of the month frame, including
the water-count, the TP profit from the plan step reached, and the
Water1..Water4 timestamp columns. -/
def mkRecord (mdf : List Bar) (idx : ℕ) : TradeRecord :=
  let sim := simulate mdf idx
  let entry_price := (mdf.getD idx default).price
  let water_cnt := sim.waters.length
  let plan := make_plan entry_price
  let profit :=
    if sim.res = Outcome.TP then
      (plan.getD water_cnt default).qty *
        ((plan.getD water_cnt default).tp - (plan.getD water_cnt default).avg)
    else 0
  { entryTime := (mdf.getD idx default).time, entryPrice := entry_price,
    result := sim.res, holdMin := sim.hold, exitTime := sim.exitTime,
    waterCnt := water_cnt, profit := round2 profit,
    waterCols := (List.range DROPS.length).map fun j => sim.waters.get? j }

/-- The aggregate output of backtest: the four saved row sets (TP+LIQ, LIQ,
TP, OPEN) and the outcome counts used for the rate statistics. -/
structure BacktestReport where
  closedRows : List TradeRecord
  liqRows : List TradeRecord
  tpRows : List TradeRecord
  openRows : List TradeRecord
  tpCount : ℕ
  liqCount : ℕ
  total : ℕ
deriving DecidableEq

/-- backtest of simulate.py: filter the series to the requested month,
simulate every index of the month frame as an independent entry, build
df_res = pd.DataFrame(records), then produce the four Result-filtered row
sets and the outcome counts.  Every one of those downstream steps selects
the 'Result' column, which raises KeyError when the month matched zero
rows (df_res then has no columns); the first such access is the
df_res['Result'] != 'OPEN' mask of the combined save. -/
def backtest (df : List PriceRow) (month : String) : Except String BacktestReport :=
  let mdf := (df.filter fun r => r.month == month).map
    fun r => ({ time := r.time, price := r.price } : Bar)
  let records := (List.range mdf.length).map (mkRecord mdf)
  let df_res := frameOfRecords records
  do
    let fClosed ← maskByResult df_res fun r => r.result != Outcome.OPEN
    let fLiq ← maskByResult df_res fun r => r.result == Outcome.LIQ
    let fTp ← maskByResult df_res fun r => r.result == Outcome.TP
    let fOpen ← maskByResult df_res fun r => r.result == Outcome.OPEN
    let tpCnt ← countResult df_res Outcome.TP
    let liqCnt ← countResult df_res Outcome.LIQ
    return { closedRows := fClosed.rows, liqRows := fLiq.rows, tpRows := fTp.rows,
             openRows := fOpen.rows, tpCount := tpCnt, liqCount := liqCnt,
             total := df_res.rows.length }

end Ladder

namespace Sig

/-- Signal condition of compute_signals for one (lookback, threshold) pair
at position t: the trailing drop (past - price) / past meets the threshold,
where past = price.shift(lookback) at position t - lookback.  Positions
without a sample lookback places earlier (the shifted value is NaN in
pandas) never signal. -/
def signalCond (prices : List ℚ) (t : ℕ) (p : ℕ × ℚ) : Bool :=
  if p.1 ≤ t then
    let past := prices.getD (t - p.1) 0
    let cur := prices.getD t 0
    decide (p.2 ≤ (past - cur) / past)
  else
    false

/-- compute_signals of 변동성계산.py / 연속매매.py: a boolean per position of
the series, true iff at least one configured (lookback, threshold) pair
fires there (the source ORs one boolean series per pair into signals). -/
def compute_signals (prices : List ℚ) (thresholds : List (ℕ × ℚ)) : List Bool :=
  (List.range prices.length).map fun t => thresholds.any (signalCond prices t)

/-- Number of true entries of compute_signals. -/
def countSignals (prices : List ℚ) (thresholds : List (ℕ × ℚ)) : ℕ :=
  (compute_signals prices thresholds).count true

end Sig

namespace Rev

/-- Direction of the single open position of the reversal backtest
(the source uses the strings 'long' and 'short'). -/
inductive Direction where
  | long
  | short
deriving DecidableEq, Inhabited

/-- Direction flip performed after every recorded trade. -/
def Direction.flip : Direction → Direction
  | .long => .short
  | .short => .long

/-- The month-filtered price frame of 연속매매.py: a time-indexed price
series with strictly increasing, unique timestamps (the converted CSV is
ordered and deduplicated by timestamp). -/
structure Series where
  times : List ℚ
  prices : List ℚ
  hlen : times.length = prices.length
  hsorted : times.Sorted (· < ·)

/-- pandas Index.get_indexer([t], method='bfill') on a sorted unique index:
the position of the first timestamp at or after t (none when every
timestamp is before t). -/
def bfillIdx : List ℚ → ℚ → Option ℕ
  | [], _ => none
  | x :: xs, t => if t ≤ x then some 0 else (bfillIdx xs t).map (· + 1)

/-- One trade record appended to `trades` in run_reversal_backtest. -/
structure Trade where
  entryTime : ℚ
  entryPrice : ℚ
  direction : Direction
  result : Outcome
  hold : ℕ
  exitTime : Option ℚ
  exitPrice : Option ℚ
deriving DecidableEq, Inhabited

/-- The inner for-loop of run_reversal_backtest: scan offsets j, j+1, ...
(the source iterates range(idx+1, total)); per bar test TP first, then the
direction's liquidation price, all from the fixed entry-time avg/qty/margin
(no ladder).  The fuel argument is called with the series length, which
bounds the remaining offsets. -/
def findExitFrom (s : Series) (dir : Direction) (tpPrice avg qty margin mmr : ℚ) :
    ℕ → ℕ → Option (ℕ × Outcome)
  | _, 0 => none
  | j, rem + 1 =>
    if j < s.prices.length then
      let price := s.prices.getD j 0
      match dir with
      | .long =>
        if tpPrice ≤ price then some (j, .TP)
        else if price ≤ (avg * qty - margin) / (qty * (1 - mmr)) then some (j, .LIQ)
        else findExitFrom s dir tpPrice avg qty margin mmr (j + 1) rem
      | .short =>
        if price ≤ tpPrice then some (j, .TP)
        else if (margin + qty * avg) / (qty * (1 + mmr)) ≤ price then some (j, .LIQ)
        else findExitFrom s dir tpPrice avg qty margin mmr (j + 1) rem
    else none

/-- One iteration of the while-loop body of run_reversal_backtest: enter
at bar idx with the current direction, compute the take-profit and the
position size from the entry price, scan forward for TP or LIQ, and build
the recorded trade.  The second component is the next entry index when a
resolved exit exists — get_indexer([exit_time], method='bfill') on the
signal series' index, which is the same index as the price frame's (the
source never reads the boolean signal values, only that shared index) —
and none when the position stays OPEN, which stops the loop. -/
def tradeAt (s : Series) (roi_net lev init_m mmr : ℚ) (idx : ℕ)
    (dir : Direction) : Trade × Option ℕ :=
  let entry_price := s.prices.getD idx 0
  let t := roi_net / lev
  let tp_price := match dir with
    | .long => entry_price * (1 + t)
    | .short => entry_price * (1 - t)
  let margin := init_m
  let qty := margin * lev / entry_price
  let avg := entry_price
  match findExitFrom s dir tp_price avg qty margin mmr (idx + 1) s.prices.length with
  | none =>
    ({ entryTime := s.times.getD idx 0, entryPrice := entry_price, direction := dir,
       result := .OPEN, hold := s.prices.length - 1 - idx,
       exitTime := none, exitPrice := none }, none)
  | some (o, res) =>
    ({ entryTime := s.times.getD idx 0, entryPrice := entry_price, direction := dir,
       result := res, hold := o - idx,
       exitTime := some (s.times.getD o 0), exitPrice := some (s.prices.getD o 0) },
     some ((bfillIdx s.times (s.times.getD o 0)).getD s.times.length))

/-- The while-loop of run_reversal_backtest: while idx < total - 1, record
the trade entered at idx, flip the direction, stop when the trade has no
resolved exit, otherwise continue from the next entry index.  The fuel
argument is called with the series length; the loop iterates fewer times
because the entry index strictly increases (proved below). -/
def runReversalAux (s : Series) (roi_net lev init_m mmr : ℚ) :
    ℕ → ℕ → Direction → List Trade
  | 0, _, _ => []
  | fuel + 1, idx, dir =>
    if idx < s.prices.length - 1 then
      match tradeAt s roi_net lev init_m mmr idx dir with
      | (tr, none) => [tr]
      | (tr, some nidx) =>
        tr :: runReversalAux s roi_net lev init_m mmr fuel nidx dir.flip
    else []

/-- run_reversal_backtest of 연속매매.py.  The signals argument is taken
exactly as in the source; the source reads only signals.index (the same
timestamps as the series), never the boolean values.  The initial idx is
the bfill lookup of start_time on the series index; when no timestamp is
at or after start_time the source's get_indexer yields -1 (a degenerate
wrap to the last row), a case outside every claim, modelled as no trades. -/
def run_reversal_backtest (s : Series) (signals : List Bool)
    (roi_net lev init_m mmr : ℚ) (start_time : ℚ) : List Trade :=
  match bfillIdx s.times start_time with
  | some idx => runReversalAux s roi_net lev init_m mmr s.prices.length idx .long
  | none => []

/-- A concrete three-bar series with constant price 100, used to evaluate
the reversal driver on an input whose drop signals are all false. -/
def flatSeries : Series :=
  { times := [0, 1, 2], prices := [100, 100, 100],
    hlen := rfl, hsorted := by decide }

/-- A concrete three-bar series 100, 101, 100: the long entry at bar 0
takes profit at bar 1, the reversed short entry at bar 1 takes profit at
bar 2, giving a two-trade chain. -/
def upDownSeries : Series :=
  { times := [0, 1, 2], prices := [100, 101, 100],
    hlen := rfl, hsorted := by decide }

end Rev

/-! Helper lemmas. -/

namespace NoScale

/-- On the first bar whose price touches the take-profit or the liquidation
threshold, scanBars classifies TP when the take-profit inequality holds and
LIQ when the liquidation inequality holds, with hold c + k + 1. -/
theorem scanBars_first_touch (tpPrice avg qty margin : ℚ)
    (hsep : (avg * qty - margin) / (qty * (1 - MMR)) < tpPrice) :
    ∀ (bars : List Bar) (k c : ℕ), k < bars.length →
      (∀ j, j < k →
        (avg * qty - margin) / (qty * (1 - MMR)) < (bars.getD j default).price ∧
        (bars.getD j default).price < tpPrice) →
      (tpPrice ≤ (bars.getD k default).price →
        scanBars tpPrice avg qty margin c bars =
          { res := .TP, hold := c + k + 1, exitTime := some (bars.getD k default).time }) ∧
      ((bars.getD k default).price ≤ (avg * qty - margin) / (qty * (1 - MMR)) →
        scanBars tpPrice avg qty margin c bars =
          { res := .LIQ, hold := c + k + 1, exitTime := some (bars.getD k default).time }) := by
  intro bars
  induction bars with
  | nil => intro k c hk; simp at hk
  | cons b rest ih =>
    intro k c hk hfirst
    match k with
    | 0 =>
      constructor
      · intro htp
        simp only [List.getD_cons_zero] at htp ⊢
        simp only [scanBars, if_pos htp]
      · intro hliq
        simp only [List.getD_cons_zero] at hliq ⊢
        have hntp : ¬ tpPrice ≤ b.price := not_le.mpr (lt_of_le_of_lt hliq hsep)
        simp only [scanBars, if_neg hntp, if_pos hliq]
    | k + 1 =>
      have h0 := hfirst 0 (Nat.succ_pos k)
      simp only [List.getD_cons_zero] at h0
      have hntp : ¬ tpPrice ≤ b.price := not_le.mpr h0.2
      have hnliq : ¬ b.price ≤ (avg * qty - margin) / (qty * (1 - MMR)) :=
        not_le.mpr h0.1
      have hk2 : k < rest.length := by simpa using hk
      have hfirst2 : ∀ j, j < k →
          (avg * qty - margin) / (qty * (1 - MMR)) < (rest.getD j default).price ∧
          (rest.getD j default).price < tpPrice := by
        intro j hj
        have := hfirst (j + 1) (by omega)
        simpa using this
      have hrec := ih k (c + 1) hk2 hfirst2
      constructor
      · intro htp
        simp only [List.getD_cons_succ] at htp ⊢
        simp only [scanBars, if_neg hntp, if_neg hnliq]
        rw [(hrec.1 htp)]
        congr 1
        omega
      · intro hliq
        simp only [List.getD_cons_succ] at hliq ⊢
        simp only [scanBars, if_neg hntp, if_neg hnliq]
        rw [(hrec.2 hliq)]
        congr 1
        omega

/-- Any terminal (TP or LIQ) classification of scanBars happens on a bar
strictly after the entry bar: the recorded hold is at least c + 1. -/
theorem scanBars_terminal_hold (tpPrice avg qty margin : ℚ) :
    ∀ (bars : List Bar) (c : ℕ),
      (scanBars tpPrice avg qty margin c bars).res ≠ .OPEN →
      c + 1 ≤ (scanBars tpPrice avg qty margin c bars).hold := by
  intro bars
  induction bars with
  | nil => intro c h; simp [scanBars] at h
  | cons b rest ih =>
    intro c h
    by_cases htp : tpPrice ≤ b.price
    · simp [scanBars, htp]
    · by_cases hliq : b.price ≤ (avg * qty - margin) / (qty * (1 - MMR))
      · simp [scanBars, htp, hliq]
      · have h2 : (scanBars tpPrice avg qty margin (c + 1) rest).res ≠ .OPEN := by
          simpa [scanBars, htp, hliq] using h
        have := ih (c + 1) h2
        simp only [scanBars, if_neg htp, if_neg hliq]
        omega

end NoScale

namespace NoScale

/-- simulate_no_scale at an entry bar of price 100 is the forward scan with
take-profit 401/4 = 100.25, avg 100, qty 400, margin 2000. -/
theorem simulate_no_scale_entry100 (t0 : ℚ) (bars : List Bar) :
    simulate_no_scale ({ time := t0, price := 100 } :: bars) 0 =
      scanBars (401 / 4) 100 400 2000 0 bars := by
  simp only [simulate_no_scale, List.getD_cons_zero, List.drop_succ_cons, List.drop_zero]
  norm_num [ROI_NET, LEVERAGE, INIT_M]

end NoScale

/-! Claim theorems. -/

/-- C3.  For a single-step (no-ladder) long position with entry price 100,
leverage 20, net_target_return 0.05, maintenance margin ratio 0.005 and
initial margin 2000, the simulator uses take-profit price exactly
100.25 = 401/4 (t = 0.05/20), quantity 400, and liquidation price
(100*400 - 2000)/(400*0.995) = 19000/199 ≈ 95.477; every price path whose
first threshold touch is at or above 100.25 is classified TP, and every
one whose first touch is at or below the liquidation price is classified
LIQ, at that first touching bar. -/
theorem noscale_concrete_scenario :
    (100 : ℚ) * (1 + NoScale.ROI_NET / NoScale.LEVERAGE) = 401 / 4 ∧
    NoScale.INIT_M * NoScale.LEVERAGE / 100 = 400 ∧
    ((100 : ℚ) * 400 - NoScale.INIT_M) / (400 * (1 - NoScale.MMR)) = 19000 / 199 ∧
    ∀ (t0 : ℚ) (bars : List Bar) (k : ℕ), k < bars.length →
      (∀ j, j < k → (19000 / 199 : ℚ) < (bars.getD j default).price ∧
        (bars.getD j default).price < 401 / 4) →
      ((401 / 4 : ℚ) ≤ (bars.getD k default).price →
        NoScale.simulate_no_scale ({ time := t0, price := 100 } :: bars) 0 =
          { res := .TP, hold := k + 1, exitTime := some (bars.getD k default).time }) ∧
      ((bars.getD k default).price ≤ 19000 / 199 →
        NoScale.simulate_no_scale ({ time := t0, price := 100 } :: bars) 0 =
          { res := .LIQ, hold := k + 1, exitTime := some (bars.getD k default).time }) := by
  refine ⟨by norm_num [NoScale.ROI_NET, NoScale.LEVERAGE],
    by norm_num [NoScale.INIT_M, NoScale.LEVERAGE],
    by norm_num [NoScale.INIT_M, NoScale.MMR], ?_⟩
  intro t0 bars k hk hfirst
  have hliq : ((100 : ℚ) * 400 - 2000) / (400 * (1 - NoScale.MMR)) = 19000 / 199 := by
    norm_num [NoScale.MMR]
  have hfirst2 : ∀ j, j < k →
      ((100 : ℚ) * 400 - 2000) / (400 * (1 - NoScale.MMR)) < (bars.getD j default).price ∧
      (bars.getD j default).price < 401 / 4 := by
    intro j hj
    rw [hliq]
    exact hfirst j hj
  have base := NoScale.scanBars_first_touch (401 / 4) 100 400 2000
    (by rw [hliq]; norm_num) bars k 0 hk hfirst2
  rw [hliq] at base
  constructor
  · intro htp
    rw [NoScale.simulate_no_scale_entry100, base.1 htp]
    simp
  · intro hl
    rw [NoScale.simulate_no_scale_entry100, base.2 hl]
    simp

/-- Witness for C3: the two-bar series 100, 101 touches 100.25 on its first
scanned bar and is classified TP with hold 1 at that bar's timestamp. -/
theorem noscale_concrete_scenario_witness :
    (0 : ℕ) < 1 ∧ (401 / 4 : ℚ) ≤ 101 ∧
    NoScale.simulate_no_scale [{ time := 0, price := 100 }, { time := 1, price := 101 }] 0 =
      { res := .TP, hold := 1, exitTime := some 1 } :=
  ⟨by norm_num, by norm_num,
    (noscale_concrete_scenario.2.2.2 0 [{ time := 1, price := 101 }] 0 (by norm_num)
      (by intro j hj; omega)).1 (by norm_num)⟩

/-- C2.  On every bar of the ladder Position Simulator the checks are
ordered: the take-profit test against the current step's take-profit price
comes first and wins outright (so a bar satisfying both the TP and the LIQ
inequality yields TP); when it fails, all qualifying ladder advances are
applied, and liquidation is then tested against the liquidation price of
the post-advance step plan[a.1], not the pre-advance one. -/
theorem ladder_tp_priority_postadvance (plan : List Ladder.Step) (pos : ℕ)
    (tpPrice : ℚ) (waters : List ℚ) (k : ℕ) (b : Bar) (rest : List Bar) :
    (tpPrice ≤ b.price →
      Ladder.scanLadder plan pos tpPrice waters k (b :: rest) =
        { res := .TP, hold := k + 1, exitTime := some b.time, waters := waters }) ∧
    (b.price < tpPrice →
      ∀ a, a = Ladder.advanceSteps plan b.price b.time plan.length pos tpPrice waters →
      (b.price ≤ Ladder.liqPrice (plan.getD a.1 default) →
        Ladder.scanLadder plan pos tpPrice waters k (b :: rest) =
          { res := .LIQ, hold := k + 1, exitTime := some b.time, waters := a.2.2 }) ∧
      (Ladder.liqPrice (plan.getD a.1 default) < b.price →
        Ladder.scanLadder plan pos tpPrice waters k (b :: rest) =
          Ladder.scanLadder plan a.1 a.2.1 a.2.2 (k + 1) rest)) := by
  constructor
  · intro htp
    simp only [Ladder.scanLadder, if_pos htp]
  · intro hlt a ha
    have hntp : ¬ tpPrice ≤ b.price := not_le.mpr hlt
    subst ha
    constructor
    · intro hliq
      simp only [Ladder.scanLadder, if_neg hntp, if_pos hliq]
    · intro hgt
      simp only [Ladder.scanLadder, if_neg hntp, if_neg (not_le.mpr hgt)]

/-- Witness for C2: with the plan for entry price 100 the bar priced 101
meets the TP inequality and is classified TP, and the bar priced 90 misses
TP, gaps through all four ladder triggers (waters [1,1,1,1]) and is then
liquidated against the post-advance step 4 liquidation price. -/
theorem ladder_tp_priority_postadvance_witness :
    ((401 / 4 : ℚ) ≤ 101 ∧
      Ladder.scanLadder (Ladder.make_plan 100) 0 (401 / 4) [] 0 [{ time := 1, price := 101 }] =
        { res := .TP, hold := 1, exitTime := some 1, waters := [] }) ∧
    ((90 : ℚ) < 401 / 4 ∧
      Ladder.scanLadder (Ladder.make_plan 100) 0 (401 / 4) [] 0 [{ time := 1, price := 90 }] =
        { res := .LIQ, hold := 1, exitTime := some 1, waters := [1, 1, 1, 1] }) := by
  constructor
  · exact ⟨by norm_num,
      (ladder_tp_priority_postadvance (Ladder.make_plan 100) 0 (401 / 4) [] 0
        { time := 1, price := 101 } []).1 (by norm_num)⟩
  · refine ⟨by norm_num, ?_⟩
    have happ := ((ladder_tp_priority_postadvance (Ladder.make_plan 100) 0 (401 / 4) [] 0
        { time := 1, price := 90 } []).2 (by norm_num) _ rfl).1
      (by norm_num [Ladder.advanceSteps, Ladder.liqPrice, Ladder.make_plan, Ladder.planAux,
        Ladder.ROI_NET, Ladder.LEVERAGE, Ladder.INIT_M, Ladder.ADD_M, Ladder.DROPS, Ladder.MMR])
    rw [happ]
    norm_num [Ladder.advanceSteps, Ladder.make_plan, Ladder.planAux,
      Ladder.ROI_NET, Ladder.LEVERAGE, Ladder.INIT_M, Ladder.ADD_M, Ladder.DROPS]

/-- The steps appended by planAux form a chain in which every new step's
average lies strictly between its trigger and the previous step's average,
and every new trigger lies strictly below the previous average — given a
positive running quantity and average, the running-notional invariant
n = avg * q, and drop fractions strictly between 0 and 1. -/
theorem planAux_chain (t : ℚ) :
    ∀ (drops : List ℚ), (∀ d ∈ drops, 0 < d ∧ d < 1) →
    ∀ (m n q avg : ℚ) (i : ℕ) (s : Ladder.Step),
      0 < q → 0 < avg → n = avg * q → s.avg = avg →
      List.Chain'
        (fun s1 s2 => (s2.trigger < s2.avg ∧ s2.avg < s1.avg) ∧ s2.trigger < s1.avg)
        (s :: Ladder.planAux t drops m n q avg i) := by
  intro drops
  induction drops with
  | nil =>
    intro _ m n q avg i s _ _ _ _
    simp [Ladder.planAux]
  | cons d ds ih =>
    intro hd m n q avg i s hq havg hn hs
    obtain ⟨hd0, hd1⟩ := hd d (List.mem_cons_self d ds)
    have hA : (0 : ℚ) < Ladder.ADD_M * Ladder.LEVERAGE := by
      norm_num [Ladder.ADD_M, Ladder.LEVERAGE]
    simp only [Ladder.planAux]
    set trigger := avg * (1 - d) with htr
    have htrpos : 0 < trigger := mul_pos havg (by linarith)
    have htlt : trigger < avg := by
      have := mul_lt_mul_of_pos_left (show (1 - d : ℚ) < 1 by linarith) havg
      simpa [htr] using this
    set q2 := q + Ladder.ADD_M * Ladder.LEVERAGE / trigger with hq2def
    have hq2 : 0 < q2 := by
      have := div_pos hA htrpos
      have := hq
      simp only [hq2def]
      linarith
    set n2 := n + Ladder.ADD_M * Ladder.LEVERAGE with hn2def
    set avg2 := n2 / q2 with havg2def
    have etq : trigger * q2 = trigger * q + Ladder.ADD_M * Ladder.LEVERAGE := by
      have h1 : trigger * (Ladder.ADD_M * Ladder.LEVERAGE / trigger) =
          Ladder.ADD_M * Ladder.LEVERAGE := by
        field_simp
      calc trigger * q2 = trigger * q + trigger * (Ladder.ADD_M * Ladder.LEVERAGE / trigger) := by
            rw [hq2def]; ring
        _ = trigger * q + Ladder.ADD_M * Ladder.LEVERAGE := by rw [h1]
    have key1 : trigger < avg2 := by
      rw [havg2def, lt_div_iff hq2, etq, hn2def, hn]
      have : trigger * q < avg * q := mul_lt_mul_of_pos_right htlt hq
      linarith
    have key2 : avg2 < avg := by
      rw [havg2def, div_lt_iff hq2]
      have eaq : avg * q2 = avg * q + Ladder.ADD_M * Ladder.LEVERAGE * avg / trigger := by
        rw [hq2def]; ring
      have hgt : Ladder.ADD_M * Ladder.LEVERAGE <
          Ladder.ADD_M * Ladder.LEVERAGE * avg / trigger := by
        rw [lt_div_iff htrpos]
        have := mul_lt_mul_of_pos_left htlt hA
        linarith
      rw [eaq, hn2def, hn]
      linarith
    have havg2 : 0 < avg2 := lt_trans htrpos key1
    have hn2 : n2 = avg2 * q2 := by
      rw [havg2def, div_mul_cancel₀ _ (ne_of_gt hq2)]
    rw [List.chain'_cons]
    constructor
    · refine ⟨⟨key1, ?_⟩, ?_⟩
      · rw [hs]; exact key2
      · rw [hs]; exact htlt
    · exact ih (fun e he => hd e (List.mem_cons_of_mem d he)) _ n2 q2 avg2 (i + 1) _
        hq2 havg2 hn2 rfl

/-- C4.  For every positive entry price (with the configured positive
margins, the positive leverage 20, and the configured drop fractions, each
strictly between 0 and 1), make_plan satisfies: step 0 has avg_price equal
to the entry price and quantity INIT_M * LEVERAGE / entry; for every step
i+1 the average lies strictly between that step's trigger and the previous
step's average; and the trigger of step i+1 is strictly below the average
of step i. -/
theorem ladder_plan_invariants (entry : ℚ) (hentry : 0 < entry) :
    ((Ladder.make_plan entry).getD 0 default).avg = entry ∧
    ((Ladder.make_plan entry).getD 0 default).qty =
      Ladder.INIT_M * Ladder.LEVERAGE / entry ∧
    ∀ i (h : i + 1 < (Ladder.make_plan entry).length),
      (((Ladder.make_plan entry).get ⟨i + 1, h⟩).trigger <
          ((Ladder.make_plan entry).get ⟨i + 1, h⟩).avg ∧
        ((Ladder.make_plan entry).get ⟨i + 1, h⟩).avg <
          ((Ladder.make_plan entry).get ⟨i, by omega⟩).avg) ∧
      ((Ladder.make_plan entry).get ⟨i + 1, h⟩).trigger <
        ((Ladder.make_plan entry).get ⟨i, by omega⟩).avg := by
  have hdrops : ∀ d ∈ Ladder.DROPS, 0 < d ∧ d < 1 := by
    intro d hd
    simp only [Ladder.DROPS, List.mem_cons, List.not_mem_nil, or_false] at hd
    rcases hd with rfl | rfl | rfl | rfl <;> norm_num
  have hq0 : 0 < Ladder.INIT_M * Ladder.LEVERAGE / entry := by
    apply div_pos (by norm_num [Ladder.INIT_M, Ladder.LEVERAGE]) hentry
  have hn0 : Ladder.INIT_M * Ladder.LEVERAGE =
      entry * (Ladder.INIT_M * Ladder.LEVERAGE / entry) := by
    field_simp
  have hch := planAux_chain (Ladder.ROI_NET / Ladder.LEVERAGE) Ladder.DROPS hdrops
    Ladder.INIT_M (Ladder.INIT_M * Ladder.LEVERAGE)
    (Ladder.INIT_M * Ladder.LEVERAGE / entry) entry 1
    ({ step := 0, trigger := entry, avg := entry,
       tp := entry * (1 + Ladder.ROI_NET / Ladder.LEVERAGE),
       margin := Ladder.INIT_M, qty := Ladder.INIT_M * Ladder.LEVERAGE / entry })
    hq0 hentry hn0 rfl
  have hplan : Ladder.make_plan entry =
      ({ step := 0, trigger := entry, avg := entry,
         tp := entry * (1 + Ladder.ROI_NET / Ladder.LEVERAGE),
         margin := Ladder.INIT_M, qty := Ladder.INIT_M * Ladder.LEVERAGE / entry } ::
       Ladder.planAux (Ladder.ROI_NET / Ladder.LEVERAGE) Ladder.DROPS Ladder.INIT_M
         (Ladder.INIT_M * Ladder.LEVERAGE) (Ladder.INIT_M * Ladder.LEVERAGE / entry)
         entry 1) := rfl
  refine ⟨by rw [hplan]; rfl, by rw [hplan]; rfl, ?_⟩
  intro i h
  rw [List.chain'_iff_get] at hch
  exact hch i (by rw [hplan] at h; simpa using h)

/-- Witness for C4: at entry price 100 the plan's step 0 carries avg 100
and qty INIT_M * LEVERAGE / 100. -/
theorem ladder_plan_invariants_witness :
    (0 : ℚ) < 100 ∧ ((Ladder.make_plan 100).getD 0 default).avg = 100 ∧
    ((Ladder.make_plan 100).getD 0 default).qty =
      Ladder.INIT_M * Ladder.LEVERAGE / 100 :=
  ⟨by norm_num, (ladder_plan_invariants 100 (by norm_num)).1,
    (ladder_plan_invariants 100 (by norm_num)).2.1⟩

/-- Every step appended by planAux sets its take-profit price to
avg * (1 + t) from its own average. -/
theorem planAux_tp (t : ℚ) :
    ∀ (drops : List ℚ) (m n q avg : ℚ) (i : ℕ),
      ∀ st ∈ Ladder.planAux t drops m n q avg i, st.tp = st.avg * (1 + t) := by
  intro drops
  induction drops with
  | nil => intro m n q avg i st hst; simp [Ladder.planAux] at hst
  | cons d ds ih =>
    intro m n q avg i st hst
    simp only [Ladder.planAux, List.mem_cons] at hst
    rcases hst with rfl | hst
    · rfl
    · exact ih _ _ _ _ _ st hst

/-- C6 counterexample.  In the default configuration the take-profit price
of step 0 of the plan for entry price 100 is NOT the fee-inclusive form
avg * (1 + net_target_return/leverage + 2*maker_fee): the plan gives
100.25 while the fee-inclusive form gives 100.29. -/
theorem ladder_tp_fee_inclusive_counterexample :
    ¬ (((Ladder.make_plan 100).getD 0 default).tp =
        ((Ladder.make_plan 100).getD 0 default).avg *
          (1 + Ladder.ROI_NET / Ladder.LEVERAGE + 2 * Ladder.FEE_MAKER)) := by
  norm_num [Ladder.make_plan, Ladder.planAux, Ladder.ROI_NET, Ladder.LEVERAGE,
    Ladder.FEE_MAKER, Ladder.INIT_M, Ladder.DROPS]

/-- C6 amended.  The take-profit price of every step of every plan equals
avg * (1 + net_target_return / leverage); the configured maker fee
FEE_MAKER is not part of the take-profit target (it is never read by
make_plan). -/
theorem ladder_tp_excludes_maker_fee (entry : ℚ) :
    ∀ st ∈ Ladder.make_plan entry,
      st.tp = st.avg * (1 + Ladder.ROI_NET / Ladder.LEVERAGE) := by
  intro st hst
  simp only [Ladder.make_plan, List.mem_cons] at hst
  rcases hst with rfl | hst
  · rfl
  · exact planAux_tp (Ladder.ROI_NET / Ladder.LEVERAGE) Ladder.DROPS _ _ _ _ _ st hst

/-- Witness for the amended C6: step 0 of the plan for entry 100 is a
member of that plan and its take-profit price is avg * (1 + ROI/leverage),
numerically 401/4. -/
theorem ladder_tp_excludes_maker_fee_witness :
    ((Ladder.make_plan 100).getD 0 default) ∈ Ladder.make_plan 100 ∧
    ((Ladder.make_plan 100).getD 0 default).tp =
      ((Ladder.make_plan 100).getD 0 default).avg *
        (1 + Ladder.ROI_NET / Ladder.LEVERAGE) :=
  ⟨List.mem_cons_self _ _,
    ladder_tp_excludes_maker_fee 100 _ (List.mem_cons_self _ _)⟩

/-- Counting true entries of a mapped list is monotone under a pointwise
boolean implication between the two mapping functions. -/
theorem countTrue_mono {α : Type} (l : List α) (f g : α → Bool)
    (h : ∀ x ∈ l, f x = true → g x = true) :
    (l.map f).count true ≤ (l.map g).count true := by
  induction l with
  | nil => simp
  | cons a l ih =>
    have ht := ih fun x hx => h x (List.mem_cons_of_mem a hx)
    simp only [List.map_cons, List.count_cons]
    by_cases hfa : f a = true
    · have hga := h a (List.mem_cons_self a l) hfa
      simp only [hfa, hga]
      omega
    · have hfa2 : f a = false := by simpa using hfa
      cases hga : g a <;> simp [hfa2, hga] <;> omega

/-- If one signal configuration fires at position t and a second
configuration has the same lookbacks with thresholds at most as large,
the second configuration also fires at t. -/
theorem signalCond_any_mono (prices : List ℚ) (t : ℕ) :
    ∀ {th1 th2 : List (ℕ × ℚ)},
      List.Forall₂ (fun a b => a.1 = b.1 ∧ b.2 ≤ a.2) th1 th2 →
      th1.any (Sig.signalCond prices t) = true →
      th2.any (Sig.signalCond prices t) = true := by
  intro th1 th2 hf
  induction hf with
  | nil => simp
  | cons hab htail ih =>
    rename_i a b l1 l2
    intro hany
    simp only [List.any_cons, Bool.or_eq_true] at hany ⊢
    rcases hany with hp | hany
    · left
      obtain ⟨h1, h2⟩ := hab
      simp only [Sig.signalCond] at hp ⊢
      rw [← h1]
      by_cases hle : a.1 ≤ t
      · rw [if_pos hle] at hp ⊢
        simp only [decide_eq_true_eq] at hp ⊢
        exact le_trans h2 hp
      · rw [if_neg hle] at hp
        exact absurd hp (by simp)
    · exact Or.inr (ih hany)

/-- C8.  For any fixed price series and two threshold configurations over
the same lookbacks in which every threshold of the second is at most the
corresponding threshold of the first, the count of true signals under the
second configuration is at least the count under the first: decreasing
thresholds never decreases the signal count. -/
theorem signals_threshold_monotone (prices : List ℚ) (th1 th2 : List (ℕ × ℚ))
    (h : List.Forall₂ (fun a b => a.1 = b.1 ∧ b.2 ≤ a.2) th1 th2) :
    Sig.countSignals prices th1 ≤ Sig.countSignals prices th2 := by
  unfold Sig.countSignals Sig.compute_signals
  exact countTrue_mono (List.range prices.length) _ _
    fun t _ hp => signalCond_any_mono prices t h hp

/-- Witness for C8: over the series 100, 95, lowering the one-minute drop
threshold from 10 percent to 5 percent keeps the signal count monotone. -/
theorem signals_threshold_monotone_witness :
    List.Forall₂ (fun a b => a.1 = b.1 ∧ b.2 ≤ a.2)
      [((1 : ℕ), (1 / 10 : ℚ))] [((1 : ℕ), (1 / 20 : ℚ))] ∧
    Sig.countSignals [100, 95] [((1 : ℕ), (1 / 10 : ℚ))] ≤
      Sig.countSignals [100, 95] [((1 : ℕ), (1 / 20 : ℚ))] :=
  ⟨List.Forall₂.cons ⟨rfl, by norm_num⟩ List.Forall₂.nil,
    signals_threshold_monotone [100, 95] _ _
      (List.Forall₂.cons ⟨rfl, by norm_num⟩ List.Forall₂.nil)⟩

namespace Rev

/-- Direction flip is an involution. -/
theorem Direction.flip_flip : ∀ d : Direction, d.flip.flip = d := by
  intro d; cases d <;> rfl

/-- A successful bfill lookup returns a position inside the index whose
timestamp is at or after the requested instant. -/
theorem bfillIdx_le : ∀ (ts : List ℚ) (t : ℚ) (j : ℕ), bfillIdx ts t = some j →
    j < ts.length ∧ t ≤ ts.getD j 0 := by
  intro ts
  induction ts with
  | nil => intro t j h; simp [bfillIdx] at h
  | cons x xs ih =>
    intro t j h
    simp only [bfillIdx] at h
    split at h
    · obtain rfl : (0 : ℕ) = j := by simpa using h
      refine ⟨by simp, ?_⟩
      simpa using ‹t ≤ x›
    · obtain ⟨j2, hj2, rfl⟩ : ∃ j2, bfillIdx xs t = some j2 ∧ j2 + 1 = j := by
        simpa [Option.map_eq_some'] using h
      obtain ⟨hl, hle⟩ := ih t j2 hj2
      exact ⟨by simpa using hl, by simpa using hle⟩

/-- On a strictly sorted index, the bfill lookup of the timestamp stored at
position o is position o itself. -/
theorem bfillIdx_self : ∀ (ts : List ℚ), ts.Sorted (· < ·) →
    ∀ o, o < ts.length → bfillIdx ts (ts.getD o 0) = some o := by
  intro ts
  induction ts with
  | nil => intro _ o ho; simp at ho
  | cons x xs ih =>
    intro hs o ho
    match o with
    | 0 => simp [bfillIdx]
    | o + 1 =>
      have ho2 : o < xs.length := by simpa using ho
      have hmem : xs.getD o 0 ∈ xs := by
        rw [List.getD_eq_getElem xs 0 ho2]
        exact List.getElem_mem ho2
      have hx : x < xs.getD o 0 := (List.sorted_cons.mp hs).1 _ hmem
      have hnle : ¬ xs.getD o 0 ≤ x := not_le.mpr hx
      simp only [bfillIdx, List.getD_cons_succ, if_neg hnle]
      rw [ih (List.sorted_cons.mp hs).2 o ho2]
      rfl

/-- A resolved exit offset lies strictly inside the series and at or after
the first scanned offset. -/
theorem findExitFrom_bounds (s : Series) (dir : Direction)
    (tpPrice avg qty margin mmr : ℚ) :
    ∀ (rem j o : ℕ) (res : Outcome),
      findExitFrom s dir tpPrice avg qty margin mmr j rem = some (o, res) →
      j ≤ o ∧ o < s.prices.length := by
  intro rem
  induction rem with
  | zero => intro j o res h; simp [findExitFrom] at h
  | succ rem ih =>
    intro j o res h
    simp only [findExitFrom] at h
    by_cases hj : j < s.prices.length
    · rw [if_pos hj] at h
      split at h <;> split at h <;>
        first
          | (simp only [Option.some.injEq, Prod.mk.injEq] at h
             obtain ⟨h1, -⟩ := h
             omega)
          | (split at h <;>
              first
                | (simp only [Option.some.injEq, Prod.mk.injEq] at h
                   obtain ⟨h1, -⟩ := h
                   omega)
                | (have hrec := ih (j + 1) o res h
                   omega))
    · rw [if_neg hj] at h
      cases h

/-- When the entry index has fewer than two bars left, the driver records
nothing, whatever the fuel. -/
theorem runReversalAux_stop (s : Series) (roi lev im mmr : ℚ) (fuel idx : ℕ)
    (dir : Direction) (h : ¬ idx < s.prices.length - 1) :
    runReversalAux s roi lev im mmr fuel idx dir = [] := by
  cases fuel with
  | zero => rfl
  | succ fuel => simp [runReversalAux, h]


/-- The trade built by tradeAt enters at the timestamp of its entry index
and carries the current direction. -/
theorem tradeAt_fst (s : Series) (roi lev im mmr : ℚ) (idx : ℕ) (dir : Direction) :
    (tradeAt s roi lev im mmr idx dir).1.entryTime = s.times.getD idx 0 ∧
    (tradeAt s roi lev im mmr idx dir).1.direction = dir := by
  simp only [tradeAt]
  split <;> exact ⟨rfl, rfl⟩

/-- A tradeAt iteration with no next index recorded an OPEN trade. -/
theorem tradeAt_open (s : Series) (roi lev im mmr : ℚ) (idx : ℕ) (dir : Direction)
    (tr : Trade) (h : tradeAt s roi lev im mmr idx dir = (tr, none)) :
    tr.result = .OPEN := by
  simp only [tradeAt] at h
  split at h
  · injection h with h1 h2
    rw [← h1]
  · injection h with h1 h2
    cases h2

/-- A tradeAt iteration with a next index resolved its exit on a bar o
strictly after the entry index and strictly inside the series; the trade's
exit time is the timestamp at o, its hold is o - idx, and the next index
is the bfill lookup of that exit time. -/
theorem tradeAt_next (s : Series) (roi lev im mmr : ℚ) (idx : ℕ) (dir : Direction)
    (tr : Trade) (nidx : ℕ) (h : tradeAt s roi lev im mmr idx dir = (tr, some nidx)) :
    ∃ o, idx < o ∧ o < s.prices.length ∧
      tr.exitTime = some (s.times.getD o 0) ∧ tr.hold = o - idx ∧
      nidx = (bfillIdx s.times (s.times.getD o 0)).getD s.times.length := by
  simp only [tradeAt] at h
  split at h
  · injection h with h1 h2
    cases h2
  · rename_i o res heq
    injection h with h1 h2
    injection h2 with h2
    subst h1
    subst h2
    have hb := findExitFrom_bounds s dir _ _ _ _ _ s.prices.length (idx + 1) o res heq
    exact ⟨o, by omega, hb.2, rfl, rfl, rfl⟩

/-- The first trade recorded from entry index idx carries the timestamp at
idx as its entry time and the current direction. -/
theorem runReversalAux_head (s : Series) (roi lev im mmr : ℚ) :
    ∀ (fuel idx : ℕ) (dir : Direction) (tr : Trade),
      (runReversalAux s roi lev im mmr fuel idx dir).head? = some tr →
      tr.entryTime = s.times.getD idx 0 ∧ tr.direction = dir := by
  intro fuel idx dir tr h
  cases fuel with
  | zero => simp [runReversalAux] at h
  | succ fuel =>
    simp only [runReversalAux] at h
    split at h
    · rcases htr : tradeAt s roi lev im mmr idx dir with ⟨tr0, onidx⟩
      rw [htr] at h
      have hf := tradeAt_fst s roi lev im mmr idx dir
      rw [htr] at hf
      cases onidx <;>
        · simp only [List.head?_cons, Option.some.injEq] at h
          subst h
          exact hf
    · simp at h

/-- Every trade recorded by the driver that resolved (TP or LIQ) was
resolved on a bar strictly after its entry bar: its hold is at least 1. -/
theorem runReversalAux_hold (s : Series) (roi lev im mmr : ℚ) :
    ∀ (fuel idx : ℕ) (dir : Direction) (tr : Trade),
      tr ∈ runReversalAux s roi lev im mmr fuel idx dir →
      tr.result ≠ .OPEN → 1 ≤ tr.hold := by
  intro fuel
  induction fuel with
  | zero => intro idx dir tr htr _; simp [runReversalAux] at htr
  | succ fuel ih =>
    intro idx dir tr htr hres
    simp only [runReversalAux] at htr
    split at htr
    · rcases ht2 : tradeAt s roi lev im mmr idx dir with ⟨tr0, _ | nidx⟩
      · rw [ht2] at htr
        simp only [List.mem_singleton] at htr
        subst htr
        exact absurd (tradeAt_open s roi lev im mmr idx dir tr ht2) hres
      · rw [ht2] at htr
        simp only [List.mem_cons] at htr
        rcases htr with rfl | htr
        · obtain ⟨o, hio, -, -, hhold, -⟩ :=
            tradeAt_next s roi lev im mmr idx dir tr nidx ht2
          rw [hhold]
          omega
        · exact ih _ _ tr htr hres
    · simp at htr

/-- Consecutive trades never overlap: each recorded trade has a resolved
exit time at or before the next trade's entry time (the next entry is the
bfill lookup of the exit time on the shared index). -/
theorem runReversalAux_chain (s : Series) (roi lev im mmr : ℚ) :
    ∀ (fuel idx : ℕ) (dir : Direction),
      List.Chain' (fun a b => ∃ t, a.exitTime = some t ∧ t ≤ b.entryTime)
        (runReversalAux s roi lev im mmr fuel idx dir) := by
  intro fuel
  induction fuel with
  | zero => intro idx dir; simp [runReversalAux]
  | succ fuel ih =>
    intro idx dir
    simp only [runReversalAux]
    split
    · rcases htr : tradeAt s roi lev im mmr idx dir with ⟨tr0, _ | nidx⟩
      · exact List.chain'_singleton _
      · rw [List.chain'_cons']
        refine ⟨?_, ih _ _⟩
        intro b hb
        obtain ⟨o, hio, holen, hexit, -, hnidx⟩ :=
          tradeAt_next s roi lev im mmr idx dir tr0 nidx htr
        have hhead := runReversalAux_head s roi lev im mmr fuel nidx dir.flip b hb
        refine ⟨s.times.getD o 0, hexit, ?_⟩
        rw [hhead.1, hnidx]
        rcases hbf : bfillIdx s.times (s.times.getD o 0) with _ | j
        · rw [hnidx, hbf] at hb
          simp only [Option.getD_none] at hb
          rw [runReversalAux_stop s roi lev im mmr fuel s.times.length dir.flip
            (by rw [s.hlen]; omega)] at hb
          simp at hb
        · simp only [Option.getD_some]
          exact (bfillIdx_le s.times (s.times.getD o 0) j hbf).2
    · exact List.chain'_nil

/-- The direction of each recorded trade is the flip of the previous
trade's direction. -/
theorem runReversalAux_dir_chain (s : Series) (roi lev im mmr : ℚ) :
    ∀ (fuel idx : ℕ) (dir : Direction),
      List.Chain' (fun a b => b.direction = a.direction.flip)
        (runReversalAux s roi lev im mmr fuel idx dir) := by
  intro fuel
  induction fuel with
  | zero => intro idx dir; simp [runReversalAux]
  | succ fuel ih =>
    intro idx dir
    simp only [runReversalAux]
    split
    · rcases htr : tradeAt s roi lev im mmr idx dir with ⟨tr0, _ | nidx⟩
      · exact List.chain'_singleton _
      · rw [List.chain'_cons']
        refine ⟨?_, ih _ _⟩
        intro b hb
        have hhead := runReversalAux_head s roi lev im mmr fuel nidx dir.flip b hb
        have hf := tradeAt_fst s roi lev im mmr idx dir
        rw [htr] at hf
        rw [hhead.2, hf.2]
    · exact List.chain'_nil

/-- At most one trade is recorded per unit of fuel. -/
theorem runReversalAux_length (s : Series) (roi lev im mmr : ℚ) :
    ∀ (fuel idx : ℕ) (dir : Direction),
      (runReversalAux s roi lev im mmr fuel idx dir).length ≤ fuel := by
  intro fuel
  induction fuel with
  | zero => intro idx dir; simp [runReversalAux]
  | succ fuel ih =>
    intro idx dir
    simp only [runReversalAux]
    split
    · rcases htr : tradeAt s roi lev im mmr idx dir with ⟨tr0, _ | nidx⟩
      · simp
      · simp only [List.length_cons]
        have := ih nidx dir.flip
        omega
    · simp

/-- The run is insensitive to the fuel bound once the fuel covers the
remaining series length: the loop halts within series-length iterations
because every resolved exit moves the entry index strictly forward. -/
theorem runReversalAux_congr (s : Series) (roi lev im mmr : ℚ) :
    ∀ (f g idx : ℕ) (dir : Direction),
      s.prices.length - idx ≤ f → s.prices.length - idx ≤ g →
      runReversalAux s roi lev im mmr f idx dir =
        runReversalAux s roi lev im mmr g idx dir := by
  intro f
  induction f with
  | zero =>
    intro g idx dir hf hg
    rw [runReversalAux_stop s roi lev im mmr 0 idx dir (by omega),
      runReversalAux_stop s roi lev im mmr g idx dir (by omega)]
  | succ f ih =>
    intro g idx dir hf hg
    cases g with
    | zero =>
      rw [runReversalAux_stop s roi lev im mmr (f + 1) idx dir (by omega),
        runReversalAux_stop s roi lev im mmr 0 idx dir (by omega)]
    | succ g =>
      by_cases hguard : idx < s.prices.length - 1
      · simp only [runReversalAux, if_pos hguard]
        rcases htr : tradeAt s roi lev im mmr idx dir with ⟨tr0, _ | nidx⟩
        · rfl
        · obtain ⟨o, hio, holen, -, -, hnidx⟩ :=
            tradeAt_next s roi lev im mmr idx dir tr0 nidx htr
          have hbs : bfillIdx s.times (s.times.getD o 0) = some o :=
            bfillIdx_self s.times s.hsorted o (by rw [s.hlen]; exact holen)
          have hno : nidx = o := by rw [hnidx, hbs]; rfl
          subst hno
          simp only [ih g nidx dir.flip (by omega) (by omega)]
      · rw [runReversalAux_stop s roi lev im mmr (f + 1) idx dir hguard,
          runReversalAux_stop s roi lev im mmr (g + 1) idx dir hguard]

end Rev

/-- Any terminal (TP or LIQ) classification of the ladder scan happens on
a bar strictly after the entry bar: the recorded hold is at least c + 1. -/
theorem scanLadder_terminal_hold (plan : List Ladder.Step) :
    ∀ (bars : List Bar) (pos : ℕ) (tpPrice : ℚ) (waters : List ℚ) (c : ℕ),
      (Ladder.scanLadder plan pos tpPrice waters c bars).res ≠ .OPEN →
      c + 1 ≤ (Ladder.scanLadder plan pos tpPrice waters c bars).hold := by
  intro bars
  induction bars with
  | nil => intro pos tp w c h; simp [Ladder.scanLadder] at h
  | cons b rest ih =>
    intro pos tp w c h
    by_cases htp : tp ≤ b.price
    · simp [Ladder.scanLadder, htp]
    · by_cases hliq : b.price ≤ Ladder.liqPrice (plan.getD
        (Ladder.advanceSteps plan b.price b.time plan.length pos tp w).1 default)
      · simp only [Ladder.scanLadder, if_neg htp, if_pos hliq]
        omega
      · have h2 : (Ladder.scanLadder plan
            (Ladder.advanceSteps plan b.price b.time plan.length pos tp w).1
            (Ladder.advanceSteps plan b.price b.time plan.length pos tp w).2.1
            (Ladder.advanceSteps plan b.price b.time plan.length pos tp w).2.2
            (c + 1) rest).res ≠ .OPEN := by
          simp only [Ladder.scanLadder, if_neg htp, if_neg hliq] at h
          exact h
        have := ih _ _ _ (c + 1) h2
        simp only [Ladder.scanLadder, if_neg htp, if_neg hliq]
        omega

/-- C7.  When the month selector matches zero rows, the exhaustive
backtest does NOT surface an explicit empty-result condition: it reaches
the Result-column selection df_res[df_res['Result'] != 'OPEN'] on the
empty, column-less record frame and raises KeyError('Result') — a crash
in downstream aggregation, evaluated here on a one-row series whose only
month is 2025-02 with selector 2025-03. -/
theorem backtest_empty_month_keyerror :
    Ladder.backtest [{ month := "2025-02", time := 0, price := 100 }] "2025-03" =
      Except.error "KeyError: Result" := rfl

/-- C1.  The chained driver enters at the first timestamp at or after the
start time regardless of the Signal value there: on the constant-price
series every drop signal is false, yet the driver records a trade entered
at timestamp 0 — entries are bfill index lookups, the Signal booleans are
never consulted. -/
theorem reversal_entry_ignores_false_signal :
    Sig.compute_signals Rev.flatSeries.prices [((1 : ℕ), (1 / 100 : ℚ))] =
      [false, false, false] ∧
    (Rev.run_reversal_backtest Rev.flatSeries
        (Sig.compute_signals Rev.flatSeries.prices [((1 : ℕ), (1 / 100 : ℚ))])
        (5 / 100) 20 2000 (5 / 1000) 0).map (fun tr => (tr.entryTime, tr.result)) =
      [((0 : ℚ), Outcome.OPEN)] := by
  constructor
  · norm_num [Sig.compute_signals, Sig.signalCond, Rev.flatSeries, List.range_succ]
  · norm_num [Rev.run_reversal_backtest, Rev.runReversalAux, Rev.tradeAt,
      Rev.findExitFrom, Rev.bfillIdx, Rev.flatSeries]

/-- C5.  Every trade sequence produced by the chained/reversal backtest is
non-overlapping — each trade has a resolved exit time at or before the
next trade's entry time — and the direction alternates strictly, starting
from long. -/
theorem reversal_nonoverlap_alternation (s : Rev.Series) (sigs : List Bool)
    (roi lev im mmr st : ℚ) :
    List.Chain' (fun a b => ∃ t, a.exitTime = some t ∧ t ≤ b.entryTime)
      (Rev.run_reversal_backtest s sigs roi lev im mmr st) ∧
    (∀ tr0, (Rev.run_reversal_backtest s sigs roi lev im mmr st).head? = some tr0 →
      tr0.direction = Rev.Direction.long) ∧
    List.Chain' (fun a b => b.direction = a.direction.flip)
      (Rev.run_reversal_backtest s sigs roi lev im mmr st) := by
  simp only [Rev.run_reversal_backtest]
  rcases hb : Rev.bfillIdx s.times st with _ | i0
  · simp
  · exact ⟨Rev.runReversalAux_chain s roi lev im mmr s.prices.length i0 .long,
      fun tr0 h => (Rev.runReversalAux_head s roi lev im mmr s.prices.length i0 .long tr0 h).2,
      Rev.runReversalAux_dir_chain s roi lev im mmr s.prices.length i0 .long⟩

/-- Witness for C5: on the 100, 101, 100 series the first recorded trade
enters long at timestamp 0 and takes profit at timestamp 1. -/
theorem reversal_nonoverlap_alternation_witness :
    ∃ tr0, (Rev.run_reversal_backtest Rev.upDownSeries []
        (5 / 100) 20 2000 (5 / 1000) 0).head? = some tr0 ∧
      tr0.direction = Rev.Direction.long := by
  have happ := (reversal_nonoverlap_alternation Rev.upDownSeries []
    (5 / 100) 20 2000 (5 / 1000) 0).2.1
  have he : (Rev.run_reversal_backtest Rev.upDownSeries []
      (5 / 100) 20 2000 (5 / 1000) 0).head? =
      some { entryTime := 0, entryPrice := 100, direction := .long, result := .TP,
             hold := 1, exitTime := some 1, exitPrice := some 101 } := by
    norm_num [Rev.run_reversal_backtest, Rev.runReversalAux, Rev.tradeAt,
      Rev.findExitFrom, Rev.bfillIdx, Rev.upDownSeries]
  exact ⟨_, he, happ _ he⟩

/-- C9.  The chained driver terminates on every finite price series: once
the fuel bound covers the series length the computed trade list no longer
depends on it (each iteration strictly advances the entry index, so the
loop halts within series-length iterations), and the number of recorded
trades is bounded by the series length. -/
theorem reversal_terminates_bounded (s : Rev.Series) (sigs : List Bool)
    (roi lev im mmr st : ℚ) :
    (∀ fuel idx dir, s.prices.length ≤ fuel →
      Rev.runReversalAux s roi lev im mmr fuel idx dir =
        Rev.runReversalAux s roi lev im mmr s.prices.length idx dir) ∧
    (Rev.run_reversal_backtest s sigs roi lev im mmr st).length ≤ s.prices.length := by
  constructor
  · intro fuel idx dir hfu
    exact Rev.runReversalAux_congr s roi lev im mmr fuel s.prices.length idx dir
      (by omega) (by omega)
  · simp only [Rev.run_reversal_backtest]
    rcases hb : Rev.bfillIdx s.times st with _ | i0
    · simp
    · exact Rev.runReversalAux_length s roi lev im mmr s.prices.length i0 .long

/-- Witness for C9: on the three-bar flat series, fuel 4 computes the same
run as fuel 3 = series length, and the run records at most 3 trades. -/
theorem reversal_terminates_bounded_witness :
    Rev.runReversalAux Rev.flatSeries (5 / 100) 20 2000 (5 / 1000) 4 0 .long =
      Rev.runReversalAux Rev.flatSeries (5 / 100) 20 2000 (5 / 1000) 3 0 .long ∧
    (Rev.run_reversal_backtest Rev.flatSeries [] (5 / 100) 20 2000 (5 / 1000) 0).length ≤ 3 :=
  ⟨(reversal_terminates_bounded Rev.flatSeries [] (5 / 100) 20 2000 (5 / 1000) 0).1
      4 0 .long (by decide),
    (reversal_terminates_bounded Rev.flatSeries [] (5 / 100) 20 2000 (5 / 1000) 0).2⟩

/-- C10.  In all three simulator variants — ladder, no-scale and reversal
— the entry bar's own price is never tested against the take-profit or
liquidation thresholds (the forward scan begins after the entry bar), so
every terminal TP or LIQ result has hold at least 1, even when the entry
price itself already satisfies a terminal inequality. -/
theorem entry_bar_never_tested :
    (∀ (df : List Bar) (start : ℕ), (Ladder.simulate df start).res ≠ .OPEN →
      1 ≤ (Ladder.simulate df start).hold) ∧
    (∀ (df : List Bar) (start : ℕ), (NoScale.simulate_no_scale df start).res ≠ .OPEN →
      1 ≤ (NoScale.simulate_no_scale df start).hold) ∧
    (∀ (s : Rev.Series) (sigs : List Bool) (roi lev im mmr st : ℚ) (tr : Rev.Trade),
      tr ∈ Rev.run_reversal_backtest s sigs roi lev im mmr st →
      tr.result ≠ .OPEN → 1 ≤ tr.hold) := by
  refine ⟨?_, ?_, ?_⟩
  · intro df start h
    simp only [Ladder.simulate] at h ⊢
    exact scanLadder_terminal_hold _ _ _ _ _ 0 h
  · intro df start h
    simp only [NoScale.simulate_no_scale] at h ⊢
    exact NoScale.scanBars_terminal_hold _ _ _ _ _ 0 h
  · intro s sigs roi lev im mmr st tr htr hres
    simp only [Rev.run_reversal_backtest] at htr
    rcases hb : Rev.bfillIdx s.times st with _ | i0 <;> rw [hb] at htr
    · simp at htr
    · exact Rev.runReversalAux_hold s roi lev im mmr s.prices.length i0 .long tr htr hres

/-- Witness for C10: on a two-bar series whose second bar price 200 is far
above the take-profit, both single-entry simulators classify TP with hold
exactly 1, and the first reversal trade of the up-down series resolved
with hold 1. -/
theorem entry_bar_never_tested_witness :
    1 ≤ (Ladder.simulate [{ time := 0, price := 100 }, { time := 1, price := 200 }] 0).hold ∧
    1 ≤ (NoScale.simulate_no_scale
        [{ time := 0, price := 100 }, { time := 1, price := 200 }] 0).hold ∧
    1 ≤ ({ entryTime := 0, entryPrice := 100, direction := .long, result := .TP,
           hold := 1, exitTime := some 1, exitPrice := some 101 } : Rev.Trade).hold := by
  refine ⟨?_, ?_, ?_⟩
  · exact entry_bar_never_tested.1 _ 0
      (by norm_num [Ladder.simulate, Ladder.scanLadder, Ladder.make_plan, Ladder.planAux,
        Ladder.ROI_NET, Ladder.LEVERAGE, Ladder.INIT_M, Ladder.ADD_M, Ladder.DROPS] <;>
        decide)
  · exact entry_bar_never_tested.2.1 _ 0
      (by norm_num [NoScale.simulate_no_scale, NoScale.scanBars, NoScale.ROI_NET,
        NoScale.LEVERAGE, NoScale.INIT_M] <;>
        decide)
  · exact entry_bar_never_tested.2.2 Rev.upDownSeries [] (5 / 100) 20 2000 (5 / 1000) 0 _
      (by norm_num [Rev.run_reversal_backtest, Rev.runReversalAux, Rev.tradeAt,
        Rev.findExitFrom, Rev.bfillIdx, Rev.upDownSeries, Rev.Direction.flip])
      (by decide)
